import Mathlib

/-!
Verification of the Hidden Number Problem (HNP) solving pipeline from the
notebook `camenisch-lysyanskaya-signatures.ipynb` (the HNP section): the MSB
oracle simulator, the lattice-basis construction, LLL-style basis reduction,
Babai's nearest-plane approximate-CVP solver, and scalar recovery.

The Sage source is embedded shallowly:
* machine randomness (Sage `randint`) becomes an explicit seed / stream of
  naturals threaded through the definitions;
* the unbounded rejection-sampling loop in `msb` becomes structural recursion
  over the finite stream of candidate draws, returning `Option`;
* exact rational arithmetic (Sage `QQ`) becomes `ℚ`;
* vectors of dimension `m` are functions `Fin m → ℚ`, a matrix is a list of
  row vectors;
* Sage's `Matrix.LLL()` and `gram_schmidt()` are not part of the repository's
  own code, so they are modelled from the specification's description of the
  LatticeReducer component (LLL with exact rationals, δ = 3/4, an iteration
  cap proportional to dimension squared times a safety factor, and a
  ReductionNonTermination error when the cap is exceeded);
* Sage's `Rational.__mod__` (used by `(v[-1] * p) % p`) reduces the numerator
  against the modular inverse of the denominator and raises
  `ZeroDivisionError` when the denominator shares a factor with the modulus;
  it is embedded as an `Option`-valued function.
-/

namespace HNP

/-- Vectors of dimension `m` over the exact rationals. -/
abbrev Vec (m : ℕ) := Fin m → ℚ

/-- A matrix is a list of row vectors. -/
abbrev Mat (m : ℕ) := List (Vec m)

/-- Inner product of two rational vectors. -/
def dot {m : ℕ} (v w : Vec m) : ℚ := ∑ i, v i * w i

/-- Round to the nearest integer, ties away from zero: the convention of
Sage's `Rational.round()` used by both the reduction and the solver. -/
def rnd (q : ℚ) : ℤ := if 0 ≤ q then ⌊q + 1/2⌋ else ⌈q - 1/2⌉

/-- Sage `randint a b` on a seed `s`: a value in `[a, b]` (for `a ≤ b`). -/
def randint (a b s : ℕ) : ℕ := a + s % (b + 1 - a)

/-- Source `msb(query)`: rejection-sample `z = randint(1, p-1)` until
`abs(query - z) < p / 2^(k+1)` holds as an exact rational comparison.  The
stream `rs` supplies the successive random draws; `none` means the stream was
exhausted before a candidate was accepted. -/
def msb (p k query : ℕ) : List ℕ → Option ℕ
  | [] => none
  | s :: rest =>
    let z := randint 1 (p - 1) s
    let answer := ((query : ℤ) - z).natAbs
    if (answer : ℚ) < (p : ℚ) / 2 ^ (k + 1) then some z else msb p k query rest

/-- Randomness consumed by one oracle call: a seed for the query input `t`
and a stream of candidate draws for the `msb` rejection sampling. -/
structure QueryRand where
  tSeed : ℕ
  zs : List ℕ
  deriving Repr

/-- Source `create_oracle(alpha)`: the returned closure draws
`random_t = randint(1, p-1)` and answers `msb((alpha * random_t) % p)`. -/
def oracleQuery (p k alpha : ℕ) (qr : QueryRand) : ℕ × Option ℕ :=
  let t := randint 1 (p - 1) qr.tSeed
  (t, msb p k ((alpha * t) % p) qr.zs)

/-- Worker for the oracle-query phase: one oracle call per supplied
randomness record, failing if any `msb` stream runs dry. -/
def runQueriesGo (p k alpha : ℕ) : List QueryRand → Option (List (ℕ × ℕ))
  | [] => some []
  | qr :: rest =>
    match oracleQuery p k alpha qr, runQueriesGo p k alpha rest with
    | (t, some a), some tas => some ((t, a) :: tas)
    | _, _ => none

/-- The source draws `d` query/answer pairs from the oracle
(`[ oracle() for _ in range(d) ]`); the `i`-th call consumes the `i`-th
randomness record. -/
def runQueries (p k alpha d : ℕ) (qrs : List QueryRand) : Option (List (ℕ × ℕ)) :=
  runQueriesGo p k alpha ((List.range d).map (fun i => qrs.getD i ⟨0, []⟩))

/-- Source `build_basis(oracle_inputs)`: rows `0 .. d-1` put `p` at
coordinate `i` and `0` elsewhere; the final row is the oracle inputs followed
by the exact rational `1/p`. -/
def build_basis (p d : ℕ) (oracle_inputs : List ℕ) : Mat (d + 1) :=
  (List.range d).map (fun i => (fun j => if j.val = i then (p : ℚ) else 0 : Vec (d + 1)))
    ++ [fun j => if j.val < d then ((oracle_inputs.getD j.val 0 : ℕ) : ℚ) else 1 / (p : ℚ)]

/-- Gram–Schmidt projection coefficient `⟨v, g⟩ / ⟨g, g⟩` (the μ of the
specification; `0` when `g` is the zero vector, by rational division). -/
def muCoef {m : ℕ} (v g : Vec m) : ℚ := dot v g / dot g g

/-- Modelled from the spec: Gram–Schmidt orthogonalization worker.  The
accumulator holds the already-orthogonalized vectors `G_0 .. G_{j-1}`; each
incoming row `b` contributes `b - ∑_j μ(b, G_j) • G_j`.  This stands in for
Sage's `Matrix.gram_schmidt()`, which the repository calls but does not
implement. -/
def gsoGo {m : ℕ} (acc : Mat m) : Mat m → Mat m
  | [] => acc
  | b :: bs =>
    let proj := acc.foldl (fun w g => w + muCoef b g • g) (0 : Vec m)
    gsoGo (acc ++ [b - proj]) bs

/-- Modelled from the spec: Gram–Schmidt orthogonal basis of the rows. -/
def gso {m : ℕ} (B : Mat m) : Mat m := gsoGo [] B

/-- Modelled from the spec: size-reduce row `kk` against rows `j-1, …, 0`,
subtracting the rounded projection coefficient times each earlier row. -/
def sizeReduceGo {m : ℕ} (G : Mat m) (kk : ℕ) : ℕ → Mat m → Mat m
  | 0, B => B
  | j + 1, B =>
    let c := rnd (muCoef (B.getD kk 0) (G.getD j 0))
    sizeReduceGo G kk j (B.set kk (B.getD kk 0 - (c : ℚ) • B.getD j 0))

/-- Swap rows `i` and `j` of the basis. -/
def swapRows {m : ℕ} (B : Mat m) (i j : ℕ) : Mat m :=
  (B.set i (B.getD j 0)).set j (B.getD i 0)

/-- Errors surfaced by the solving pipeline. -/
inductive SolveError where
  | reductionNonTermination
  | zeroDivision
  deriving DecidableEq, Repr

instance {ε α : Type} [DecidableEq ε] [DecidableEq α] : DecidableEq (Except ε α) := fun a b =>
  match a, b with
  | .error e₁, .error e₂ =>
    if h : e₁ = e₂ then .isTrue (by rw [h]) else .isFalse (fun hc => by cases hc; exact h rfl)
  | .error _, .ok _ => .isFalse (fun hc => by cases hc)
  | .ok _, .error _ => .isFalse (fun hc => by cases hc)
  | .ok a₁, .ok a₂ =>
    if h : a₁ = a₂ then .isTrue (by rw [h]) else .isFalse (fun hc => by cases hc; exact h rfl)

/-- Modelled from the spec: one pass of the LLL loop, with explicit fuel.
At working index `k`: recompute the Gram–Schmidt basis, size-reduce row `k`
against all earlier rows, then test the Lovász condition
`‖G_k‖² ≥ (δ - μ_{k,k-1}²)‖G_{k-1}‖²`; on success advance, otherwise swap
rows `k-1, k` and step back.  Exhausted fuel signals
`ReductionNonTermination`.  This stands in for Sage's `Matrix.LLL()`, which
the repository calls but does not implement. -/
def lllGo {m : ℕ} (δ : ℚ) : ℕ → ℕ → Mat m → Except SolveError (Mat m)
  | 0, _, _ => .error .reductionNonTermination
  | fuel + 1, k, B =>
    if k < B.length then
      let G := gso B
      let B' := sizeReduceGo G k k B
      let G' := gso B'
      let gprev := G'.getD (k - 1) 0
      let mu := muCoef (B'.getD k 0) gprev
      if (δ - mu ^ 2) * dot gprev gprev ≤ dot (G'.getD k 0) (G'.getD k 0) then
        lllGo δ fuel (k + 1) B'
      else
        lllGo δ fuel (max (k - 1) 1) (swapRows B' (k - 1) k)
    else
      .ok B

/-- Modelled from the spec: the iteration cap — dimension squared times a
safety factor. -/
def lllCap (r : ℕ) : ℕ := 100 * r ^ 2

/-- Modelled from the spec: LLL reduction with the conventional δ = 3/4 and
the iteration cap, starting at working index 1. -/
def lllReduce {m : ℕ} (B : Mat m) : Except SolveError (Mat m) :=
  lllGo (3 / 4) (lllCap B.length) 1 B

/-- Source Babai loop in `approximate_closest_vector`: for `i` from `n-1`
down to `0`, round `c = (small·G_i)/(G_i·G_i)` and subtract `c • BL_i` from
the working vector. -/
def babaiLoop {m : ℕ} (BL G : Mat m) : ℕ → Vec m → Vec m
  | 0, small => small
  | i + 1, small =>
    let c := rnd (muCoef small (G.getD i 0))
    babaiLoop BL G i (small - (c : ℚ) • BL.getD i 0)

/-- Source `approximate_closest_vector(basis, v)`: LLL-reduce the basis,
orthogonalize it, cast the target to integers (`vector(ZZ, v)`), run the
Babai loop over all `m` coordinates, and return `v - small`. -/
def approximate_closest_vector {m : ℕ} (basis : Mat m) (v : Fin m → ℤ) :
    Except SolveError (Vec m) :=
  match lllReduce basis with
  | .error e => .error e
  | .ok BL =>
    let G := gso BL
    let vq : Vec m := fun i => (v i : ℚ)
    let small := babaiLoop BL G m vq
    .ok (vq - small)

/-- Brute-force modular inverse: the least `b < n` with `a * b % n = 1`,
else `0`.  Total stand-in for Sage's `inverse_mod` used by rational mod. -/
def invMod (a n : ℕ) : ℕ := ((List.range n).find? (fun b => a * b % n == 1)).getD 0

/-- Sage `Rational.__mod__`: `q % y` lifts the numerator against the modular
inverse of the denominator; a denominator sharing a factor with `y` raises
`ZeroDivisionError`, embedded as `none`. -/
def ratMod (q : ℚ) (y : ℕ) : Option ℤ :=
  if Nat.gcd q.den y = 1 then some (q.num * (invMod q.den y : ℤ) % (y : ℤ)) else none

/-- Source `recovered_alpha = (v[-1] * p) % p` on the solved vector's
coordinate list. -/
def recovered_alpha (v : List ℚ) (p : ℕ) : Option ℤ :=
  ratMod ((v.getLast?.getD 0) * (p : ℚ)) p

/-- The solving phase of the demo cell: build the basis from the query
inputs, form the target from the answers plus a trailing zero, call the
approximate-CVP solver, and recover the scalar from the last coordinate. -/
def solveRun (p d : ℕ) (tas : List (ℕ × ℕ)) : Except SolveError ℤ :=
  let lattice := build_basis p d (tas.map Prod.fst)
  let u : Fin (d + 1) → ℤ := fun j => if j.val < d then ((tas.map Prod.snd).getD j.val 0 : ℤ) else 0
  match approximate_closest_vector lattice u with
  | .error e => .error e
  | .ok w =>
    match recovered_alpha (List.ofFn w) p with
    | none => .error .zeroDivision
    | some r => .ok r

/-- The full demo cell: draw the secret `alpha = randint(1, p-1)`, run `d`
oracle queries, solve, and `assert recovered_alpha == alpha`.  `none` models
any uncompleted run (exhausted randomness, a solver error, or a failed
assertion). -/
def pipeline (p k d alphaSeed : ℕ) (qrs : List QueryRand) : Option ℤ :=
  let alpha := randint 1 (p - 1) alphaSeed
  match runQueries p k alpha d qrs with
  | none => none
  | some tas =>
    match solveRun p d tas with
    | .error _ => none
    | .ok r => if r = (alpha : ℤ) then some r else none

/-! ## The lattice spanned by a basis

`inLattice B v` says `v` is an integer linear combination of the rows of
`B` — the lattice of the basis.  `sameLattice B B'` is the mutual
integer-combination expressibility of rows that the specification gives as
the equivalent form of "spans the identical lattice". -/

/-- Integer linear combination of the rows of a basis. -/
def lincomb {m : ℕ} : List ℤ → Mat m → Vec m
  | c :: cs, b :: bs => (c : ℚ) • b + lincomb cs bs
  | _, _ => 0

/-- Membership in the integer row span of a basis. -/
def inLattice {m : ℕ} (B : Mat m) (v : Vec m) : Prop :=
  ∃ c : List ℤ, c.length = B.length ∧ v = lincomb c B

/-- Mutual expressibility: every row of each basis is an integer combination
of the rows of the other. -/
def sameLattice {m : ℕ} (B B' : Mat m) : Prop :=
  (∀ w ∈ B, inLattice B' w) ∧ (∀ w ∈ B', inLattice B w)

theorem lincomb_replicate_zero {m : ℕ} (B : Mat m) :
    lincomb (List.replicate B.length 0) B = 0 := by
  induction B with
  | nil => rfl
  | cons b bs ih => simp [lincomb, List.replicate, ih]

theorem inLattice_zero {m : ℕ} (B : Mat m) : inLattice B 0 :=
  ⟨List.replicate B.length 0, by simp, (lincomb_replicate_zero B).symm⟩

theorem lincomb_zipWith_add {m : ℕ} (B : Mat m) (c₁ c₂ : List ℤ)
    (h₁ : c₁.length = B.length) (h₂ : c₂.length = B.length) :
    lincomb (List.zipWith (· + ·) c₁ c₂) B = lincomb c₁ B + lincomb c₂ B := by
  induction B generalizing c₁ c₂ with
  | nil =>
    cases c₁ <;> cases c₂ <;> simp [lincomb]
  | cons b bs ih =>
    cases c₁ with
    | nil => simp at h₁
    | cons x xs =>
      cases c₂ with
      | nil => simp at h₂
      | cons y ys =>
        simp only [List.zipWith_cons_cons, lincomb]
        rw [ih xs ys (by simpa using h₁) (by simpa using h₂)]
        push_cast
        rw [add_smul]
        abel

theorem lincomb_map_mul {m : ℕ} (B : Mat m) (c : List ℤ) (z : ℤ) :
    lincomb (c.map (fun x => z * x)) B = (z : ℚ) • lincomb c B := by
  induction B generalizing c with
  | nil => cases c <;> simp [lincomb]
  | cons b bs ih =>
    cases c with
    | nil => simp [lincomb]
    | cons x xs =>
      simp only [List.map_cons, lincomb, ih xs]
      push_cast
      rw [smul_add, smul_smul]

theorem inLattice_add {m : ℕ} {B : Mat m} {v w : Vec m}
    (hv : inLattice B v) (hw : inLattice B w) : inLattice B (v + w) := by
  obtain ⟨c₁, h₁, rfl⟩ := hv
  obtain ⟨c₂, h₂, rfl⟩ := hw
  exact ⟨List.zipWith (· + ·) c₁ c₂, by simp [h₁, h₂],
    (lincomb_zipWith_add B c₁ c₂ h₁ h₂).symm⟩

theorem inLattice_smul {m : ℕ} {B : Mat m} {v : Vec m} (z : ℤ)
    (hv : inLattice B v) : inLattice B ((z : ℚ) • v) := by
  obtain ⟨c, hc, rfl⟩ := hv
  exact ⟨c.map (fun x => z * x), by simp [hc], (lincomb_map_mul B c z).symm⟩

theorem inLattice_sub {m : ℕ} {B : Mat m} {v w : Vec m}
    (hv : inLattice B v) (hw : inLattice B w) : inLattice B (v - w) := by
  have := inLattice_add hv (inLattice_smul (-1) hw)
  simpa [sub_eq_add_neg] using this

theorem inLattice_mem {m : ℕ} {B : Mat m} {w : Vec m} (hw : w ∈ B) :
    inLattice B w := by
  induction B with
  | nil => simp at hw
  | cons b bs ih =>
    rcases List.mem_cons.mp hw with rfl | hmem
    · exact ⟨1 :: List.replicate bs.length 0, by simp, by
        simp [lincomb, lincomb_replicate_zero bs]⟩
    · obtain ⟨c, hc, rfl⟩ := ih hmem
      exact ⟨0 :: c, by simp [hc], by simp [lincomb]⟩

theorem inLattice_getD {m : ℕ} (B : Mat m) (i : ℕ) :
    inLattice B (B.getD i 0) := by
  by_cases hi : i < B.length
  · exact inLattice_mem (by rw [List.getD_eq_getElem B 0 hi]; exact B.getElem_mem hi)
  · rw [List.getD_eq_default B 0 (le_of_not_lt hi)]
    exact inLattice_zero B

theorem inLattice_lincomb {m : ℕ} {B B' : Mat m}
    (hrows : ∀ w ∈ B', inLattice B w) (c : List ℤ) :
    inLattice B (lincomb c B') := by
  induction B' generalizing c with
  | nil => cases c <;> exact inLattice_zero B
  | cons b bs ih =>
    cases c with
    | nil => exact inLattice_zero B
    | cons x xs =>
      exact inLattice_add
        (inLattice_smul x (hrows b (List.mem_cons_self b bs)))
        (ih (fun w hw => hrows w (List.mem_cons_of_mem b hw)) xs)

theorem inLattice_of_subLattice {m : ℕ} {B B' : Mat m} {v : Vec m}
    (hrows : ∀ w ∈ B', inLattice B w) (hv : inLattice B' v) : inLattice B v := by
  obtain ⟨c, _, rfl⟩ := hv
  exact inLattice_lincomb hrows c

theorem sameLattice_refl {m : ℕ} (B : Mat m) : sameLattice B B :=
  ⟨fun _ hw => inLattice_mem hw, fun _ hw => inLattice_mem hw⟩

theorem sameLattice_trans {m : ℕ} {B₁ B₂ B₃ : Mat m}
    (h₁ : sameLattice B₁ B₂) (h₂ : sameLattice B₂ B₃) : sameLattice B₁ B₃ :=
  ⟨fun w hw => inLattice_of_subLattice h₂.1 (h₁.1 w hw),
   fun w hw => inLattice_of_subLattice h₁.2 (h₂.2 w hw)⟩

theorem sameLattice_inLattice_iff {m : ℕ} {B B' : Mat m}
    (h : sameLattice B B') (v : Vec m) : inLattice B v ↔ inLattice B' v :=
  ⟨fun hv => inLattice_of_subLattice h.1 hv, fun hv => inLattice_of_subLattice h.2 hv⟩

/-! ## Elementary row operations preserve the lattice -/

theorem sameLattice_set_row_sub {m : ℕ} (B : Mat m) (i j : ℕ) (hij : i ≠ j) (z : ℤ) :
    sameLattice B (B.set i (B.getD i 0 - (z : ℚ) • B.getD j 0)) := by
  by_cases hi : i < B.length
  · constructor
    · intro w hw
      obtain ⟨l, hl, rfl⟩ := List.mem_iff_getElem.mp hw
      by_cases hli : l = i
      · subst hli
        have hrow : (B.set l (B.getD l 0 - (z : ℚ) • B.getD j 0)).getD l 0
            = B.getD l 0 - (z : ℚ) • B.getD j 0 := by
          rw [List.getD_eq_getElem _ 0 (by simpa using hl), List.getElem_set_self]
        have hrowj : (B.set l (B.getD l 0 - (z : ℚ) • B.getD j 0)).getD j 0 = B.getD j 0 := by
          by_cases hjlen : j < B.length
          · rw [List.getD_eq_getElem _ 0 (by simpa using hjlen),
              List.getElem_set_ne (by simpa using hij), ← List.getD_eq_getElem B 0 hjlen]
          · rw [List.getD_eq_default _ 0 (by simpa using le_of_not_lt hjlen),
              List.getD_eq_default _ 0 (le_of_not_lt hjlen)]
        have hget : B[l] = B.getD l 0 := (List.getD_eq_getElem B 0 hl).symm
        rw [hget]
        have h2 : inLattice (B.set l (B.getD l 0 - (z : ℚ) • B.getD j 0))
            (((B.set l (B.getD l 0 - (z : ℚ) • B.getD j 0)).getD l 0)
              + (z : ℚ) • ((B.set l (B.getD l 0 - (z : ℚ) • B.getD j 0)).getD j 0)) :=
          inLattice_add (inLattice_getD _ l) (inLattice_smul z (inLattice_getD _ j))
        rw [hrow, hrowj] at h2
        simpa using h2
      · have hget : B[l] = B.getD l 0 := (List.getD_eq_getElem B 0 hl).symm
        have hother : (B.set i (B.getD i 0 - (z : ℚ) • B.getD j 0)).getD l 0 = B.getD l 0 := by
          rw [List.getD_eq_getElem _ 0 (by simpa using hl),
            List.getElem_set_ne (fun h => hli h.symm), ← List.getD_eq_getElem B 0 hl]
        rw [hget, ← hother]
        exact inLattice_getD _ l
    · intro w hw
      rcases List.mem_or_eq_of_mem_set hw with hmem | rfl
      · exact inLattice_mem hmem
      · exact inLattice_sub (inLattice_getD B i) (inLattice_smul z (inLattice_getD B j))
  · rw [List.set_eq_of_length_le (le_of_not_lt hi)]
    exact sameLattice_refl B

theorem swapRows_getD_snd {m : ℕ} (B : Mat m) (i j : ℕ) (hj : j < B.length) :
    (swapRows B i j).getD j 0 = B.getD i 0 := by
  unfold swapRows
  rw [List.getD_eq_getElem _ 0 (by simpa using hj), List.getElem_set_self]

theorem swapRows_getD_fst {m : ℕ} (B : Mat m) (i j : ℕ) (hi : i < B.length) :
    (swapRows B i j).getD i 0 = B.getD j 0 := by
  by_cases hij : i = j
  · rw [hij, swapRows_getD_snd B j j (hij ▸ hi)]
  · unfold swapRows
    rw [List.getD_eq_getElem _ 0 (by simpa using hi),
      List.getElem_set_ne (fun h => hij h.symm), List.getElem_set_self]

theorem swapRows_getD_other {m : ℕ} (B : Mat m) (i j l : ℕ)
    (hli : l ≠ i) (hlj : l ≠ j) : (swapRows B i j).getD l 0 = B.getD l 0 := by
  by_cases hl : l < B.length
  · unfold swapRows
    rw [List.getD_eq_getElem _ 0 (by simpa using hl),
      List.getElem_set_ne (fun h => hlj h.symm),
      List.getElem_set_ne (fun h => hli h.symm), ← List.getD_eq_getElem B 0 hl]
  · rw [List.getD_eq_default _ 0 (by simpa [swapRows] using le_of_not_lt hl),
      List.getD_eq_default _ 0 (le_of_not_lt hl)]

theorem sameLattice_swapRows {m : ℕ} (B : Mat m) (i j : ℕ)
    (hi : i < B.length) (hj : j < B.length) : sameLattice B (swapRows B i j) := by
  constructor
  · intro w hw
    obtain ⟨l, hl, rfl⟩ := List.mem_iff_getElem.mp hw
    have hget : B[l] = B.getD l 0 := (List.getD_eq_getElem B 0 hl).symm
    rw [hget]
    by_cases hlj : l = j
    · have : (swapRows B i j).getD i 0 = B.getD l 0 := by
        rw [swapRows_getD_fst B i j hi, hlj]
      rw [← this]
      exact inLattice_getD _ i
    · by_cases hli : l = i
      · have : (swapRows B i j).getD j 0 = B.getD l 0 := by
          rw [swapRows_getD_snd B i j hj, hli]
        rw [← this]
        exact inLattice_getD _ j
      · rw [← swapRows_getD_other B i j l hli hlj]
        exact inLattice_getD _ l
  · intro w hw
    rcases List.mem_or_eq_of_mem_set hw with hw' | rfl
    · rcases List.mem_or_eq_of_mem_set hw' with hmem | rfl
      · exact inLattice_mem hmem
      · exact inLattice_getD B j
    · exact inLattice_getD B i

theorem length_sizeReduceGo {m : ℕ} (G : Mat m) (kk : ℕ) :
    ∀ (j : ℕ) (B : Mat m), (sizeReduceGo G kk j B).length = B.length := by
  intro j
  induction j with
  | zero => intro B; rfl
  | succ j ih => intro B; rw [sizeReduceGo, ih]; simp

theorem sameLattice_sizeReduceGo {m : ℕ} (G : Mat m) (kk : ℕ) :
    ∀ (j : ℕ) (B : Mat m), j ≤ kk → sameLattice B (sizeReduceGo G kk j B) := by
  intro j
  induction j with
  | zero => intro B _; exact sameLattice_refl B
  | succ j ih =>
    intro B hj
    rw [sizeReduceGo]
    exact sameLattice_trans
      (sameLattice_set_row_sub B kk j (by omega) _)
      (ih _ (by omega))

theorem length_swapRows {m : ℕ} (B : Mat m) (i j : ℕ) :
    (swapRows B i j).length = B.length := by
  simp [swapRows]

theorem lllGo_sameLattice {m : ℕ} (δ : ℚ) :
    ∀ (fuel k : ℕ) (B B' : Mat m), lllGo δ fuel k B = .ok B' → sameLattice B B' := by
  intro fuel
  induction fuel with
  | zero => intro k B B' h; exact absurd h (by simp [lllGo])
  | succ fuel ih =>
    intro k B B' h
    rw [lllGo] at h
    by_cases hk : k < B.length
    · rw [if_pos hk] at h
      set G := gso B with hG
      set B₁ := sizeReduceGo G k k B with hB₁
      have hsame₁ : sameLattice B B₁ := sameLattice_sizeReduceGo G k k B le_rfl
      by_cases hlov : (δ - (muCoef (B₁.getD k 0) ((gso B₁).getD (k - 1) 0)) ^ 2)
          * dot ((gso B₁).getD (k - 1) 0) ((gso B₁).getD (k - 1) 0)
          ≤ dot ((gso B₁).getD k 0) ((gso B₁).getD k 0)
      · rw [if_pos hlov] at h
        exact sameLattice_trans hsame₁ (ih (k + 1) B₁ B' h)
      · rw [if_neg hlov] at h
        have hklen : k < B₁.length := by rw [hB₁, length_sizeReduceGo]; exact hk
        have hswap : sameLattice B₁ (swapRows B₁ (k - 1) k) :=
          sameLattice_swapRows B₁ (k - 1) k (by omega) hklen
        exact sameLattice_trans hsame₁
          (sameLattice_trans hswap (ih (max (k - 1) 1) _ B' h))
    · rw [if_neg hk] at h
      cases h
      exact sameLattice_refl _

theorem lllReduce_sameLattice {m : ℕ} {B B' : Mat m}
    (h : lllReduce B = .ok B') : sameLattice B B' :=
  lllGo_sameLattice (3 / 4) (lllCap B.length) 1 B B' h

/-! ## The Babai loop produces lattice points -/

theorem babaiLoop_diff_inLattice {m : ℕ} (BL G : Mat m) :
    ∀ (i : ℕ) (small : Vec m), inLattice BL (small - babaiLoop BL G i small) := by
  intro i
  induction i with
  | zero =>
    intro small
    simp only [babaiLoop, sub_self]
    exact inLattice_zero BL
  | succ i ih =>
    intro small
    simp only [babaiLoop]
    have h1 := ih (small - (rnd (muCoef small (G.getD i 0)) : ℚ) • BL.getD i 0)
    have h2 : inLattice BL ((rnd (muCoef small (G.getD i 0)) : ℚ) • BL.getD i 0) :=
      inLattice_smul _ (inLattice_getD BL i)
    have h3 : small - babaiLoop BL G i (small - (rnd (muCoef small (G.getD i 0)) : ℚ) • BL.getD i 0)
        = (rnd (muCoef small (G.getD i 0)) : ℚ) • BL.getD i 0
          + ((small - (rnd (muCoef small (G.getD i 0)) : ℚ) • BL.getD i 0)
            - babaiLoop BL G i (small - (rnd (muCoef small (G.getD i 0)) : ℚ) • BL.getD i 0)) := by
      abel
    rw [h3]
    exact inLattice_add h2 h1

/-! ## The oracle answer bound -/

theorem msb_bound {p k query : ℕ} {rs : List ℕ} {z : ℕ} (h : msb p k query rs = some z) :
    ((((query : ℤ) - z).natAbs : ℚ)) < (p : ℚ) / 2 ^ (k + 1) := by
  induction rs with
  | nil => simp [msb] at h
  | cons s rest ih =>
    simp only [msb] at h
    by_cases hc : ((((query : ℤ) - randint 1 (p - 1) s).natAbs : ℚ)) < (p : ℚ) / 2 ^ (k + 1)
    · rw [if_pos hc] at h
      cases h
      exact hc
    · rw [if_neg hc] at h
      exact ih h

/-- C1: for every query pair `(t, a)` produced by the MSB oracle with
parameters `(p, k, alpha)`, the answer satisfies
`|(alpha·t mod p) - a| < p / 2^(k+1)` as an exact rational comparison. -/
theorem c1_oracle_bound {p k alpha : ℕ} {qr : QueryRand} {t a : ℕ}
    (h : oracleQuery p k alpha qr = (t, some a)) :
    ((((alpha * t % p : ℕ) : ℤ) - a).natAbs : ℚ) < (p : ℚ) / 2 ^ (k + 1) := by
  unfold oracleQuery at h
  have ht : randint 1 (p - 1) qr.tSeed = t := congrArg Prod.fst h
  have hm : msb p k (alpha * randint 1 (p - 1) qr.tSeed % p) qr.zs = some a := by
    have := congrArg Prod.snd h
    simpa using this
  rw [ht] at hm
  exact msb_bound hm

/-- C1 witness: a concrete oracle query whose answer meets the bound. -/
theorem c1_witness : ((((2 * 1 % 5 : ℕ) : ℤ) - 2).natAbs : ℚ) < (5 : ℚ) / 2 ^ (3 + 1) :=
  c1_oracle_bound (by with_unfolding_all rfl : oracleQuery 5 3 2 ⟨0, [1]⟩ = (1, some 2))

/-- C2: for any `p` and query inputs of length `d`, `build_basis` produces a
`(d+1) × (d+1)` matrix whose rows `0 .. d-1` are `p` times the standard basis
vectors (zero in the last coordinate, since `i < d`), and whose last row
carries the query inputs followed by the exact rational `1/p`. -/
theorem c2_basis_shape (p d : ℕ) (oracle_inputs : List ℕ)
    (_hlen : oracle_inputs.length = d) :
    (build_basis p d oracle_inputs).length = d + 1
    ∧ (∀ i, i < d → ∀ j : Fin (d + 1),
        (build_basis p d oracle_inputs).getD i 0 j = if j.val = i then (p : ℚ) else 0)
    ∧ (∀ j : Fin (d + 1), j.val < d →
        (build_basis p d oracle_inputs).getD d 0 j = (oracle_inputs.getD j.val 0 : ℚ))
    ∧ (build_basis p d oracle_inputs).getD d 0 ⟨d, Nat.lt_succ_self d⟩ = 1 / (p : ℚ) := by
  have hmaplen : ((List.range d).map
      (fun i => (fun j => if j.val = i then (p : ℚ) else 0 : Vec (d + 1)))).length = d := by
    simp
  refine ⟨by simp [build_basis], ?_, ?_, ?_⟩
  · intro i hi j
    unfold build_basis
    rw [List.getD_append _ _ 0 i (by simpa using hi),
      List.getD_eq_getElem _ 0 (by simpa using hi)]
    rw [List.getElem_map]
    rw [List.getElem_range]
  · intro j hj
    unfold build_basis
    rw [List.getD_append_right _ _ _ _ (by simp)]
    simp [hmaplen, hj]
  · unfold build_basis
    rw [List.getD_append_right _ _ _ _ (by simp)]
    simp [hmaplen]

/-- C2 witness: the shape properties at a concrete basis. -/
theorem c2_witness :
    (build_basis 5 2 [3, 4]).length = 2 + 1
    ∧ (∀ i, i < 2 → ∀ j : Fin (2 + 1),
        (build_basis 5 2 [3, 4]).getD i 0 j = if j.val = i then (5 : ℚ) else 0)
    ∧ (∀ j : Fin (2 + 1), j.val < 2 →
        (build_basis 5 2 [3, 4]).getD 2 0 j = (([3, 4] : List ℕ).getD j.val 0 : ℚ))
    ∧ (build_basis 5 2 [3, 4]).getD 2 0 ⟨2, Nat.lt_succ_self 2⟩ = 1 / (5 : ℚ) :=
  c2_basis_shape 5 2 [3, 4] rfl

/-- C3: a successful basis reduction spans the identical lattice as its
input: each basis's rows are integer combinations of the other's rows, and
consequently membership in the two row-span lattices coincides. -/
theorem c3_reduction_preserves_lattice {m : ℕ} {B B' : Mat m}
    (h : lllReduce B = .ok B') :
    sameLattice B B' ∧ ∀ v : Vec m, inLattice B v ↔ inLattice B' v :=
  ⟨lllReduce_sameLattice h, fun v => sameLattice_inLattice_iff (lllReduce_sameLattice h) v⟩

/-- C3 witness: lattice preservation at a concrete reduced basis. -/
theorem c3_witness :
    sameLattice (build_basis 3 1 [1])
        [fun j => if j.val = 0 then (1 : ℚ) else 1 / 3,
         fun j => if j.val = 0 then (0 : ℚ) else -1]
      ∧ ∀ v : Vec 2, inLattice (build_basis 3 1 [1]) v
          ↔ inLattice [fun j => if j.val = 0 then (1 : ℚ) else 1 / 3,
              fun j => if j.val = 0 then (0 : ℚ) else -1] v :=
  c3_reduction_preserves_lattice
    (by with_unfolding_all decide :
      lllReduce (build_basis 3 1 [1])
        = .ok [fun j => if j.val = 0 then (1 : ℚ) else 1 / 3,
            fun j => if j.val = 0 then (0 : ℚ) else -1])

/-- C4 counterexample: at the concrete solved vector `[1/2]` with `p = 5`
the product `(1/2)·5 = 5/2` is not an integer, yet recovery silently
returns the ordinary value `0` instead of signalling an inconsistency. -/
theorem c4_counterexample :
    (((1 : ℚ) / 2 * ((5 : ℕ) : ℚ)).den ≠ 1) ∧ recovered_alpha [(1 : ℚ) / 2] 5 = some 0 := by
  with_unfolding_all decide

/-- C4 amended: recovery computes `(last coordinate × p) mod p` under Sage's
rational-mod semantics: whenever the product's denominator is coprime to
`p` — in particular when the product is not an integer — it silently returns
an ordinary integer in `[0, p)`; no RecoveryInconsistency is signalled. -/
theorem c4_recovery_silently_coerces (v : List ℚ) (p : ℕ) (hp : 0 < p)
    (hden : Nat.gcd ((v.getLast?.getD 0 * (p : ℚ)).den) p = 1) :
    ∃ r : ℤ, recovered_alpha v p = some r ∧ 0 ≤ r ∧ r < (p : ℤ) := by
  unfold recovered_alpha ratMod
  rw [if_pos hden]
  refine ⟨_, rfl, Int.emod_nonneg _ ?_, Int.emod_lt_of_pos _ ?_⟩
  · exact_mod_cast hp.ne'
  · exact_mod_cast hp

/-- C4 witness: the amended behaviour at the concrete non-integer case. -/
theorem c4_witness :
    ∃ r : ℤ, recovered_alpha [(1 : ℚ) / 2] 5 = some r ∧ 0 ≤ r ∧ r < (5 : ℤ) :=
  c4_recovery_silently_coerces [(1 : ℚ) / 2] 5 (by decide) (by with_unfolding_all decide)

/-- C6 counterexample: with `p = 5` and `k = 3` (so `p ≤ 2^k`: `k` is at
least the bit length of `p`) the oracle's target interval is not empty and
the query returns an ordinary answer — no ConfigurationError is signalled
and no error path exists in the code. -/
theorem c6_counterexample :
    5 ≤ 2 ^ 3 ∧ oracleQuery 5 3 1 ⟨0, [0]⟩ = (1, some 1) := by
  refine ⟨by decide, ?_⟩
  with_unfolding_all rfl

/-- C6 amended: for every `k` — including `k` at least the bit length of
`p` — the target interval is nonempty: `z = query` satisfies the exact bound,
so the rejection-sampling loop, fed any candidate stream containing a draw
mapping to the true residue, terminates with an answer satisfying the bound.
There is no ConfigurationError in the code to signal. -/
theorem c6_msb_terminates {p k query : ℕ} (hq1 : 1 ≤ query) (hq2 : query ≤ p - 1) :
    ∀ rs : List ℕ, (∃ s ∈ rs, randint 1 (p - 1) s = query) →
      ∃ z, msb p k query rs = some z
        ∧ ((((query : ℤ) - z).natAbs : ℚ) < (p : ℚ) / 2 ^ (k + 1)) := by
  intro rs
  induction rs with
  | nil =>
    rintro ⟨s, hs, _⟩
    exact absurd hs (List.not_mem_nil s)
  | cons s rest ih =>
    rintro ⟨s', hs', hEq⟩
    simp only [msb]
    by_cases hc : ((((query : ℤ) - randint 1 (p - 1) s).natAbs : ℚ)) < (p : ℚ) / 2 ^ (k + 1)
    · rw [if_pos hc]
      exact ⟨randint 1 (p - 1) s, rfl, hc⟩
    · rw [if_neg hc]
      rcases List.mem_cons.mp hs' with rfl | hmem
      · exfalso
        apply hc
        rw [hEq]
        simp only [sub_self, Int.natAbs_zero, Nat.cast_zero]
        apply div_pos
        · exact_mod_cast (by omega : (0 : ℕ) < p)
        · positivity
      · exact ih ⟨s', hmem, hEq⟩

/-- C6 witness: a terminating query at `k` past the bit length of `p`. -/
theorem c6_witness :
    ∃ z, msb 5 3 2 [1] = some z
      ∧ ((((2 : ℕ) : ℤ) - z).natAbs : ℚ) < ((5 : ℕ) : ℚ) / 2 ^ (3 + 1) :=
  c6_msb_terminates (by decide) (by decide) [1] ⟨1, by simp, by decide⟩

theorem lllGo_ok_or_nonterm {m : ℕ} (δ : ℚ) :
    ∀ (fuel k : ℕ) (B : Mat m),
      lllGo δ fuel k B = .error .reductionNonTermination
        ∨ ∃ B', lllGo δ fuel k B = .ok B' := by
  intro fuel
  induction fuel with
  | zero => intro k B; left; rfl
  | succ fuel ih =>
    intro k B
    simp only [lllGo]
    by_cases hk : k < B.length
    · rw [if_pos hk]
      split
      · exact ih _ _
      · exact ih _ _
    · rw [if_neg hk]
      exact Or.inr ⟨B, rfl⟩

/-- C7: the reduction step runs under an iteration cap equal to the row
count squared times the safety factor 100, and is a total operation: it
either returns a reduced basis within the cap or reports
ReductionNonTermination. -/
theorem c7_reduction_capped_total {m : ℕ} (B : Mat m) :
    lllReduce B = lllGo (3 / 4) (100 * B.length ^ 2) 1 B
    ∧ (lllReduce B = .error .reductionNonTermination ∨ ∃ B', lllReduce B = .ok B') :=
  ⟨rfl, lllGo_ok_or_nonterm (3 / 4) (lllCap B.length) 1 B⟩

/-- C8: the nearest-plane stage is deterministic — identical reduced basis,
Gram–Schmidt basis and target always produce the identical output vector;
no randomness source appears anywhere in it. -/
theorem c8_nearest_plane_deterministic {m : ℕ} (BL₁ BL₂ G₁ G₂ : Mat m) (v₁ v₂ : Vec m)
    (hB : BL₁ = BL₂) (hG : G₁ = G₂) (hv : v₁ = v₂) :
    v₁ - babaiLoop BL₁ G₁ m v₁ = v₂ - babaiLoop BL₂ G₂ m v₂ := by
  rw [hB, hG, hv]

/-- C8 witness: determinism applied at a concrete input. -/
theorem c8_witness :
    (fun _ => (1 : ℚ) : Vec 1) - babaiLoop [fun _ => 1] [fun _ => 1] 1 (fun _ => 1)
      = (fun _ => (1 : ℚ) : Vec 1) - babaiLoop [fun _ => 1] [fun _ => 1] 1 (fun _ => 1) :=
  c8_nearest_plane_deterministic _ _ _ _ _ _ rfl rfl rfl

/-- C9: every value the pipeline returns from a completed run (one that
passed its final assertion) lies in the range `[1, p-1]`. -/
theorem c9_output_range {p k d alphaSeed : ℕ} {qrs : List QueryRand} {r : ℤ}
    (hp : 2 ≤ p) (h : pipeline p k d alphaSeed qrs = some r) :
    1 ≤ r ∧ r ≤ (p : ℤ) - 1 := by
  simp only [pipeline] at h
  cases hq : runQueries p k (randint 1 (p - 1) alphaSeed) d qrs with
  | none => rw [hq] at h; cases h
  | some tas =>
    rw [hq] at h
    dsimp only at h
    cases hs : solveRun p d tas with
    | error e => rw [hs] at h; cases h
    | ok r' =>
      rw [hs] at h
      dsimp only at h
      by_cases he : r' = ((randint 1 (p - 1) alphaSeed : ℕ) : ℤ)
      · rw [if_pos he] at h
        cases h
        have h1 : 1 ≤ randint 1 (p - 1) alphaSeed := Nat.le_add_right 1 _
        have h2 : randint 1 (p - 1) alphaSeed ≤ p - 1 := by
          unfold randint
          have hmod := Nat.mod_lt alphaSeed (show 0 < p - 1 + 1 - 1 by omega)
          omega
        rw [he]
        omega
      · rw [if_neg he] at h
        cases h

/-- C9 witness: the range property at a concrete completed run. -/
theorem c9_witness : (1 : ℤ) ≤ 1 ∧ (1 : ℤ) ≤ ((3 : ℕ) : ℤ) - 1 :=
  c9_output_range (by decide) (by with_unfolding_all rfl : pipeline 3 2 1 0 [⟨0, [0]⟩] = some 1)

/-- C10: whatever the solver returns is a genuine lattice point: an integer
combination of the reduced-basis rows, hence a member of the lattice spanned
by the input basis, whether or not it is the closest point to the target. -/
theorem c10_solver_output_in_lattice {m : ℕ} {basis : Mat m} {v : Fin m → ℤ} {w : Vec m}
    (h : approximate_closest_vector basis v = .ok w) :
    ∃ BL, lllReduce basis = .ok BL ∧ inLattice BL w ∧ inLattice basis w := by
  unfold approximate_closest_vector at h
  cases hred : lllReduce basis with
  | error e => rw [hred] at h; cases h
  | ok BL =>
    rw [hred] at h
    have hw : (fun i => ((v i : ℤ) : ℚ)) - babaiLoop BL (gso BL) m (fun i => ((v i : ℤ) : ℚ)) = w := by
      injection h
    refine ⟨BL, rfl, ?_, ?_⟩
    · rw [← hw]
      exact babaiLoop_diff_inLattice BL (gso BL) m _
    · rw [← hw]
      exact inLattice_of_subLattice (lllReduce_sameLattice hred).2
        (babaiLoop_diff_inLattice BL (gso BL) m _)

/-- C10 witness: the solver output at a concrete instance is a lattice
point of both the reduced and the input basis. -/
theorem c10_witness :
    ∃ BL, lllReduce (build_basis 5 1 [2]) = .ok BL
      ∧ inLattice BL (fun j => if j.val = 0 then (1 : ℚ) else -2 / 5)
      ∧ inLattice (build_basis 5 1 [2]) (fun j => if j.val = 0 then (1 : ℚ) else -2 / 5) :=
  c10_solver_output_in_lattice
    (by with_unfolding_all decide :
      approximate_closest_vector (build_basis 5 1 [2]) (fun j => if j.val < 1 then 1 else 0)
        = .ok (fun j => if j.val = 0 then (1 : ℚ) else -2 / 5))

/-! ## Degenerate leak parameter: exact answers -/

theorem msb_exact {p k query z : ℕ} (hpk : p ≤ 2 ^ k) {rs : List ℕ}
    (h : msb p k query rs = some z) : z = query := by
  have hb := msb_bound h
  have hle : ((p : ℚ)) / 2 ^ (k + 1) ≤ 1 / 2 := by
    rw [div_le_div_iff₀ (by positivity) (by norm_num)]
    have hpq : ((p : ℚ)) ≤ 2 ^ k := by exact_mod_cast hpk
    calc (p : ℚ) * 2 ≤ 2 ^ k * 2 := by linarith
    _ = 1 * 2 ^ (k + 1) := by ring
  have hlt : ((((query : ℤ) - z).natAbs : ℚ)) < 1 :=
    lt_of_lt_of_le hb (le_trans hle (by norm_num))
  have h0 : ((query : ℤ) - z).natAbs = 0 := by
    by_contra hne
    have h1 : 1 ≤ ((query : ℤ) - z).natAbs := Nat.one_le_iff_ne_zero.mpr hne
    have h2 : (1 : ℚ) ≤ (((query : ℤ) - z).natAbs : ℚ) := by exact_mod_cast h1
    linarith
  have h3 := Int.natAbs_eq_zero.mp h0
  omega

theorem oracleQuery_exact {p k alpha : ℕ} {qr : QueryRand} {t a : ℕ}
    (hpk : p ≤ 2 ^ k) (h : oracleQuery p k alpha qr = (t, some a)) :
    a = alpha * t % p := by
  unfold oracleQuery at h
  have ht : randint 1 (p - 1) qr.tSeed = t := congrArg Prod.fst h
  have hm : msb p k (alpha * randint 1 (p - 1) qr.tSeed % p) qr.zs = some a := by
    have := congrArg Prod.snd h
    simpa using this
  rw [ht] at hm
  exact msb_exact hpk hm

theorem runQueriesGo_exact {p k alpha : ℕ} (hpk : p ≤ 2 ^ k) :
    ∀ (l : List QueryRand) (tas : List (ℕ × ℕ)), runQueriesGo p k alpha l = some tas →
      ∀ ta ∈ tas, ta.2 = alpha * ta.1 % p := by
  intro l
  induction l with
  | nil =>
    intro tas h ta hta
    cases h
    simp at hta
  | cons qr rest ih =>
    intro tas h ta hta
    simp only [runQueriesGo] at h
    rcases hoq : oracleQuery p k alpha qr with ⟨t, a?⟩
    rw [hoq] at h
    cases a? with
    | none => cases h
    | some a =>
      cases hrec : runQueriesGo p k alpha rest with
      | none => rw [hrec] at h; cases h
      | some tas' =>
        rw [hrec] at h
        cases h
        rcases List.mem_cons.mp hta with rfl | hmem
        · exact oracleQuery_exact hpk hoq
        · exact ih tas' hrec ta hmem

theorem runQueries_exact {p k alpha d : ℕ} {qrs : List QueryRand} {tas : List (ℕ × ℕ)}
    (hpk : p ≤ 2 ^ k) (h : runQueries p k alpha d qrs = some tas) :
    ∀ ta ∈ tas, ta.2 = alpha * ta.1 % p :=
  runQueriesGo_exact hpk _ tas h

end HNP
